import Mathlib

/-!
# Verification of the vivo-live-photo-converter pipeline (convert.py)

A shallow embedding of the converter script: the directory scanner
(`scan_directory`), the EXIF capture-time resolver (`get_capture_datetime`),
the two-phase orchestration of `main` (parallel transcode, serial metadata
injection), the unpaired-file copier (`copy_unpaired`), and the worker-count
constant (`TRANSCODE_WORKERS`).

External collaborators (ffmpeg, exiftool, makelive, the filesystem) are
modelled as explicit parameters describing their observable behaviour; the
Python control flow around them is translated directly from the source.
-/

set_option maxHeartbeats 1600000

namespace Vivo

/-- Python `str.lower()` as used on filename extensions: character-wise ASCII
case folding over the string's characters. -/
def strLower (s : String) : String := ⟨s.data.map Char.toLower⟩

/-- A directory entry as the scanner sees it: `stem` is `Path.stem` (the final
path component without its last extension) and `ext` is `Path.suffix` (the
last extension, including the leading dot, or empty). -/
structure File where
  stem : String
  ext : String
deriving DecidableEq, Repr

/-- `Path.name`: the full filename, `stem` plus `suffix`. -/
def File.name (f : File) : String := f.stem ++ f.ext

/-- The test `f.suffix.lower() == ".jpg"` from `scan_directory`. -/
def isJpg (f : File) : Bool := strLower f.ext == ".jpg"

/-- The test `f.suffix.lower() == ".mp4"` from `scan_directory`. -/
def isMp4 (f : File) : Bool := strLower f.ext == ".mp4"

/-- An entry the scanner classifies at all: a still (`.jpg`) or video (`.mp4`). -/
def relevantExt (f : File) : Bool := isJpg f || isMp4 f

/-- Python `dict` assignment `m[k] = v`: if the key is present its value is
replaced in place (keeping the key's insertion position), otherwise the
binding is appended.  The list keeps the dict's iteration order. -/
def dictInsert (m : List (String × α)) (k : String) (v : α) : List (String × α) :=
  match m with
  | [] => [(k, v)]
  | (k₁, v₁) :: rest => if k₁ = k then (k, v) :: rest else (k₁, v₁) :: dictInsert rest k v

/-- Python `m.get(k)` / `m[k]` on our dict model: first binding of the key. -/
def dictLookup (m : List (String × α)) (k : String) : Option α :=
  match m with
  | [] => none
  | (k₁, v₁) :: rest => if k₁ = k then some v₁ else dictLookup rest k

/-- Python `k in m`. -/
def dictContains (m : List (String × α)) (k : String) : Bool :=
  (dictLookup m k).isSome

/-- One iteration of the classification loop in `scan_directory`:
`if f.suffix.lower() == ".jpg": jpg_map[f.stem] = f
 elif f.suffix.lower() == ".mp4": mp4_map[f.stem] = f`. -/
def scanStep (maps : List (String × File) × List (String × File)) (f : File) :
    List (String × File) × List (String × File) :=
  if isJpg f then (dictInsert maps.1 f.stem f, maps.2)
  else if isMp4 f then (maps.1, dictInsert maps.2 f.stem f)
  else maps

/-- The `jpg_map` / `mp4_map` dictionaries built by iterating over the
directory listing `l` (in filesystem iteration order). -/
def buildMaps (l : List File) : List (String × File) × List (String × File) :=
  l.foldl scanStep ([], [])

/-- Sort key for pairs: `key=lambda p: p[0].stem`. -/
def pairLe (p q : File × File) : Prop := p.1.stem ≤ q.1.stem

instance : DecidableRel pairLe := fun p q =>
  inferInstanceAs (Decidable (p.1.stem ≤ q.1.stem))

/-- Sort key for unpaired assets: `key=lambda f: f.name`. -/
def nameLe (f g : File) : Prop := f.name ≤ g.name

instance : DecidableRel nameLe := fun f g =>
  inferInstanceAs (Decidable (f.name ≤ g.name))

/-- The pairing loop of `scan_directory`: for each `jpg_map` item whose stem
is also a key of `mp4_map`, append the pair `(jpg, mp4_map[stem])`. -/
def scanPairs (l : List File) : List (File × File) :=
  (buildMaps l).1.filterMap fun e =>
    (dictLookup (buildMaps l).2 e.1).map fun m => (e.2, m)

/-- The `paired_stems` set of `scan_directory`: stems added by the pairing
loop, i.e. `jpg_map` keys also present in `mp4_map`. -/
def paired_stems (l : List File) : List String :=
  (buildMaps l).1.filterMap fun e =>
    if dictContains (buildMaps l).2 e.1 then some e.1 else none

/-- The `unpaired` list of `scan_directory`: `jpg_map` values whose stem was
not paired, then `mp4_map` values whose stem was not paired. -/
def scanUnpaired (l : List File) : List File :=
  (buildMaps l).1.filterMap
    (fun e => if e.1 ∈ paired_stems l then none else some e.2) ++
  (buildMaps l).2.filterMap
    (fun e => if e.1 ∈ paired_stems l then none else some e.2)

/-- `scan_directory`: classify each entry by lower-cased extension into the
stem-keyed `jpg_map` / `mp4_map`, pair stems present in both, collect the
rest as unpaired, and return both lists sorted (Python `sorted` is a stable
sort; `List.insertionSort` is the corresponding stable sort). -/
def scan_directory (l : List File) : List (File × File) × List File :=
  (List.insertionSort pairLe (scanPairs l), List.insertionSort nameLe (scanUnpaired l))

/-- The files appearing in the scanner's pair list (each pair contributes its
still and its video). -/
def pairFiles (ps : List (File × File)) : List File :=
  ps.flatMap fun p => [p.1, p.2]

/-- No two distinct entries of the listing share both their stem and their
case-insensitively-equal relevant extension (the spec's open-question case
of case-variant duplicates, e.g. `a.jpg` next to `a.JPG`). -/
def noCollision (l : List File) : Prop :=
  ∀ f ∈ l, ∀ g ∈ l, f.stem = g.stem → strLower f.ext = strLower g.ext →
    relevantExt f = true → f = g

instance (l : List File) : Decidable (noCollision l) := by
  unfold noCollision; infer_instance

/-- The two output filenames `main` derives from each pair's stem:
`Live_<stem>.jpg` and `Live_<stem>.mov`. -/
def outputNames (ps : List (File × File)) : List String :=
  ps.flatMap fun p => ["Live_" ++ p.1.stem ++ ".jpg", "Live_" ++ p.1.stem ++ ".mov"]

/-- Structural facts about every pair the scanner produces: the first file is
a still, the second a video, and they share the stem. -/
def goodPairs (ps : List (File × File)) : Prop :=
  ∀ p ∈ ps, isJpg p.1 = true ∧ isMp4 p.2 = true ∧ p.2.stem = p.1.stem

instance : IsTotal (File × File) pairLe := ⟨fun p q => le_total p.1.stem q.1.stem⟩

instance : IsTrans (File × File) pairLe := ⟨fun _ _ _ h₁ h₂ => le_trans h₁ h₂⟩

instance : IsTotal File nameLe := ⟨fun f g => le_total f.name g.name⟩

instance : IsTrans File nameLe := ⟨fun _ _ _ h₁ h₂ => le_trans h₁ h₂⟩


/-! ## Capture-time resolver (`get_capture_datetime`)

The exiftool subprocess is modelled by its observable response: the exit code
and the parse of its stdout (`none` when `json.loads` would fail on the text,
`some v` when the text parses to the JSON value `v`).  The file's mtime is a
broken-down local time.  Python exceptions escaping the function are modelled
by the `Except` error branch. -/

/-- A parsed JSON value, as produced by `json.loads`. -/
inductive JVal where
  | jnull
  | jbool (b : Bool)
  | jnum (n : Int)
  | jstr (s : String)
  | jarr (xs : List JVal)
  | jobj (fields : List (String × JVal))
deriving Repr

/-- The Python exception classes that can arise in `get_capture_datetime`. -/
inductive PyErr where
  | jsonDecodeError
  | indexError
  | keyError
  | attributeError
  | typeError
deriving DecidableEq, Repr

/-- The source's `except (json.JSONDecodeError, IndexError, KeyError)` clause:
which exception classes the handler catches. -/
def caughtByHandler : PyErr → Bool
  | .jsonDecodeError => true
  | .indexError => true
  | .keyError => true
  | .attributeError => false
  | .typeError => false

/-- Python truthiness of a JSON value (`if dt_raw:` / `if tz:`). -/
def truthy : JVal → Bool
  | .jnull => false
  | .jbool b => b
  | .jnum n => n != 0
  | .jstr s => s != ""
  | .jarr xs => !xs.isEmpty
  | .jobj fs => !fs.isEmpty

/-- Python `data[0]` on a `json.loads` result: head of a list (IndexError when
empty), KeyError on a dict (JSON object keys are strings, so integer key `0`
is never present), first character of a string, TypeError otherwise. -/
def pySubscriptZero : JVal → Except PyErr JVal
  | .jarr [] => .error .indexError
  | .jarr (x :: _) => .ok x
  | .jobj _ => .error .keyError
  | .jstr s =>
    match s.data with
    | [] => .error .indexError
    | c :: _ => .ok (.jstr ⟨[c]⟩)
  | .jnull => .error .typeError
  | .jbool _ => .error .typeError
  | .jnum _ => .error .typeError

/-- Python `data.get(key, default)`: field lookup on a dict, AttributeError
on any non-dict value. -/
def pyGetField (v : JVal) (key : String) (dflt : JVal) : Except PyErr JVal :=
  match v with
  | .jobj fs => .ok ((dictLookup fs key).getD dflt)
  | _ => .error .attributeError

/-- Python `str.replace(old, new, count)` for a single-character pattern:
replace the first `n` occurrences of `c` by `d`. -/
def replaceCharN : Nat → Char → Char → List Char → List Char
  | _, _, _, [] => []
  | 0, _, _, xs => xs
  | n + 1, c, d, x :: rest =>
    if x = c then d :: replaceCharN n c d rest
    else x :: replaceCharN (n + 1) c d rest

/-- Python `str.replace(old, new)` for a single-character pattern. -/
def replaceCharAll (c d : Char) (xs : List Char) : List Char :=
  xs.map fun x => if x = c then d else x

/-- A broken-down local timestamp (what `datetime.fromtimestamp` yields from
the file's mtime). -/
structure MTime where
  year : Nat
  month : Nat
  day : Nat
  hour : Nat
  minute : Nat
  second : Nat
deriving DecidableEq, Repr

/-- `strftime` zero-padding to two digits. -/
def pad2 (n : Nat) : String :=
  if n < 10 then "0" ++ toString n else toString n

/-- `strftime` zero-padding of the year to four digits. -/
def pad4 (n : Nat) : String :=
  if n < 10 then "000" ++ toString n
  else if n < 100 then "00" ++ toString n
  else if n < 1000 then "0" ++ toString n
  else toString n

/-- The mtime fallback `datetime.fromtimestamp(...).strftime("%Y-%m-%dT%H:%M:%S")`. -/
def mtimeFallback (t : MTime) : String :=
  pad4 t.year ++ "-" ++ pad2 t.month ++ "-" ++ pad2 t.day ++ "T" ++
    pad2 t.hour ++ ":" ++ pad2 t.minute ++ ":" ++ pad2 t.second

/-- The body of the `try:` block in `get_capture_datetime`, given the parse of
the subprocess stdout.  `.ok (some s)` means the block returned `s`, `.ok none`
means it fell through (empty/absent capture time), `.error e` means the Python
exception `e` was raised inside the block. -/
def exifTryBlock (payload : Option JVal) : Except PyErr (Option String) := do
  let data ← match payload with
    | none => Except.error PyErr.jsonDecodeError
    | some v => Except.ok v
  let d0 ← pySubscriptZero data
  let dtv ← pyGetField d0 "DateTimeOriginal" (.jstr "")
  let tzv ← pyGetField d0 "OffsetTimeOriginal" (.jstr "")
  if truthy dtv then
    match dtv with
    | .jstr s =>
      let dt_iso : String := ⟨replaceCharAll ' ' 'T' (replaceCharN 2 ':' '-' s.data)⟩
      if truthy tzv then
        match tzv with
        | .jstr tz => pure (some (dt_iso ++ tz))
        | _ => Except.error PyErr.typeError
      else pure (some dt_iso)
    | _ => Except.error PyErr.attributeError
  else pure none

/-- `get_capture_datetime`: run exiftool, and on exit code 0 attempt to read
`DateTimeOriginal` / `OffsetTimeOriginal` from its JSON output, reformatting
into ISO-8601; on non-zero exit, on a caught parsing exception, or on an
absent/empty capture time, fall back to the formatted mtime.  Exceptions not
named in the `except` clause propagate to the caller (`.error`). -/
def get_capture_datetime (returncode : Int) (payload : Option JVal) (mtime : MTime) :
    Except PyErr String :=
  if returncode = 0 then
    match exifTryBlock payload with
    | .ok (some s) => .ok s
    | .ok none => .ok (mtimeFallback mtime)
    | .error e => if caughtByHandler e then .ok (mtimeFallback mtime) else .error e
  else .ok (mtimeFallback mtime)

/-! ## Phase one (`prepare_pair`) and phase two (`finalize_pair`)

The run-specific behaviour of the external tools is a parameter:
`enc` is whether ffmpeg exits 0 for a given source video, `movOnFail` whether
a failed encode still leaves a (partial) destination file, `dt` the resolved
capture time for a still, `mkl` the makelive outcome per stem (`.ok id` for a
returned identifier, `.error msg` for a raised exception), and `ts` whether
the exiftool CreationDate write exits 0 for a stem. -/

structure Env where
  enc : File → Bool
  movOnFail : File → Bool
  dt : File → String
  mkl : String → Except String String
  ts : String → Bool

/-- Phase-one record, the source's tuple `(out_jpg, out_mov, capture_dt, stem)`. -/
structure Prepared where
  out_jpg : String
  out_mov : String
  capture_dt : String
  stem : String
deriving DecidableEq, Repr

/-- `prepare_pair` result: the JPEG is copied, then the video is transcoded;
`None` on transcode failure, the prepared tuple on success. -/
def prepare_pair (env : Env) (jpg mp4 : File) : Option Prepared :=
  let stem := jpg.stem
  let capture_dt := env.dt jpg
  let out_jpg := "Live_" ++ stem ++ ".jpg"
  let out_mov := "Live_" ++ stem ++ ".mov"
  if env.enc mp4 then some ⟨out_jpg, out_mov, capture_dt, stem⟩ else none

/-- The filenames `prepare_pair` leaves in the output directory: the copied
still is written before the transcode is attempted, so it is present even
when the transcode fails; the `.mov` is present on success (or as a partial
file if the failed encoder left one). -/
def prepare_writes (env : Env) (jpg mp4 : File) : List String :=
  ("Live_" ++ jpg.stem ++ ".jpg") ::
    (if env.enc mp4 || env.movOnFail mp4 then ["Live_" ++ jpg.stem ++ ".mov"] else [])

/-- `write_live_photo_metadata`: call makelive, returning its identifier, or
log the exception and return `None`.  Second component: log lines emitted. -/
def write_live_photo_metadata (mk : Except String String) : Option String × List String :=
  match mk with
  | .ok idtok => (some idtok, [])
  | .error e => (none, ["    [makelive 错误 / error] " ++ e])

/-- `finalize_pair`: inject the identifier; on falsy identifier log failure and
return `False`; otherwise call `set_mov_creation_date` (whose boolean result
the source discards) and log success.  Second component: log lines emitted. -/
def finalize_pair (mk : Except String String) (ts_ok : Bool) (stem : String) :
    Bool × List String :=
  let r := write_live_photo_metadata mk
  if r.1.getD "" = "" then
    (false, r.2 ++ ["  " ++ stem ++ "\n    [失败 / FAIL] 元数据注入 / metadata injection\n"])
  else
    let _ := ts_ok
    (true, r.2 ++ ["  " ++ stem ++ "\n    UUID : " ++ r.1.getD "" ++
      "\n    [完成 / OK] → Live_" ++ stem ++ ".\x7bjpg,mov\x7d\n"])

/-- Sort key of the phase-two loop: `sorted(prepared, key=lambda x: x[3])`. -/
def preparedLe (a b : Prepared) : Prop := a.stem ≤ b.stem

instance : DecidableRel preparedLe := fun a b =>
  inferInstanceAs (Decidable (a.stem ≤ b.stem))

instance : IsTotal Prepared preparedLe := ⟨fun a b => le_total a.stem b.stem⟩

instance : IsTrans Prepared preparedLe := ⟨fun _ _ _ h₁ h₂ => le_trans h₁ h₂⟩

/-- The `prepared` list of `main`: results are appended in the order futures
complete, so `completion` is the pair list in completion order (some
permutation of the scanner's pair list); failed pairs contribute nothing. -/
def phase1_prepared (env : Env) (completion : List (File × File)) : List Prepared :=
  completion.filterMap fun p => prepare_pair env p.1 p.2

/-- Output-directory contents written by phase one (phase two and the final
summary only mutate these files in place; nothing is ever deleted). -/
def phase1_outputs (env : Env) (pairs : List (File × File)) : List String :=
  pairs.flatMap fun p => prepare_writes env p.1 p.2

/-- The items phase two iterates over: `sorted(prepared, key=lambda x: x[3])`. -/
def phase2_items (env : Env) (completion : List (File × File)) : List Prepared :=
  List.insertionSort preparedLe (phase1_prepared env completion)

/-- Whether `finalize_pair` succeeds for a prepared item under `env`. -/
def finalize_success (env : Env) (it : Prepared) : Bool :=
  (finalize_pair (env.mkl it.stem) (env.ts it.stem) it.stem).1

/-- The final `ok` counter of `main`: successful finalizations in phase two. -/
def phase2_ok (env : Env) (completion : List (File × File)) : Nat :=
  (phase2_items env completion).countP (finalize_success env)

/-- Whether a pair ends the run fully converted: transcode succeeded in phase
one and the identifier injection succeeded in phase two. -/
def pairSuccess (env : Env) (p : File × File) : Bool :=
  env.enc p.2 && (finalize_pair (env.mkl p.1.stem) (env.ts p.1.stem) p.1.stem).1

/-- A concrete external-world behaviour: the encoder succeeds only for the
source video with stem `A` (leaving no partial file on failure), capture
times resolve, makelive returns an identifier, timestamp writes succeed. -/
def encBOnlyFails : Env :=
  ⟨fun f => f.stem == "A", fun _ => false, fun f => f.stem ++ "-dt",
   fun s => .ok ("id-" ++ s), fun _ => true⟩

/-- The two scanner pairs `A` and `B` of the failure scenario. -/
def pairsAB : List (File × File) :=
  [(⟨"A", ".jpg"⟩, ⟨"A", ".mp4"⟩), (⟨"B", ".jpg"⟩, ⟨"B", ".mp4"⟩)]

/-- `copy_unpaired`: copy each file in order.  `shutil.copy2` failures are not
caught, so the first failing copy raises out of the loop: the result is the
list of files copied before the failure, and the failing file (if any); files
after it are never attempted. -/
def copy_unpaired (copyOk : File → Bool) (files : List File) :
    List File × Option File :=
  match files with
  | [] => ([], none)
  | f :: rest =>
    if copyOk f then
      let r := copy_unpaired copyOk rest
      (f :: r.1, r.2)
    else ([], some f)

/-- Python `os.cpu_count() or 2`: the reported count, with `None` (and the
falsy count 0) replaced by 2. -/
def cpuCountOr2 (cpu : Option Nat) : Nat :=
  match cpu with
  | none => 2
  | some n => if n = 0 then 2 else n

/-- `TRANSCODE_WORKERS = max(1, min((os.cpu_count() or 2) // 2, 4))`. -/
def TRANSCODE_WORKERS (cpu : Option Nat) : Nat :=
  max 1 (min (cpuCountOr2 cpu / 2) 4)

end Vivo

namespace Vivo

/-! ## Dictionary lemmas -/

theorem dictLookup_dictInsert (m : List (String × α)) (k s : String) (v : α) :
    dictLookup (dictInsert m k v) s = if s = k then some v else dictLookup m s := by
  induction m with
  | nil =>
    simp only [dictInsert, dictLookup]
    by_cases h : s = k
    · subst h; simp
    · rw [if_neg (fun hk => h hk.symm), if_neg h]
  | cons e rest ih =>
    obtain ⟨k₁, v₁⟩ := e
    by_cases h₁ : k₁ = k
    · subst h₁
      by_cases h₂ : s = k₁
      · subst h₂; simp [dictInsert, dictLookup]
      · simp [dictInsert, dictLookup, h₂, show ¬ k₁ = s from fun hk => h₂ hk.symm]
    · by_cases h₂ : k₁ = s
      · subst h₂
        simp [dictInsert, dictLookup, h₁, show ¬ k₁ = k from h₁]
      · simp [dictInsert, dictLookup, h₁, h₂, ih]

theorem mem_dictInsert {m : List (String × α)} {k : String} {v : α} {e : String × α}
    (h : e ∈ dictInsert m k v) : e = (k, v) ∨ e ∈ m := by
  induction m with
  | nil => simpa [dictInsert] using h
  | cons e₁ rest ih =>
    obtain ⟨k₁, v₁⟩ := e₁
    by_cases h₁ : k₁ = k
    · rw [dictInsert, if_pos h₁] at h
      rcases List.mem_cons.mp h with h₂ | h₂
      · exact Or.inl h₂
      · exact Or.inr (List.mem_cons_of_mem _ h₂)
    · rw [dictInsert, if_neg h₁] at h
      rcases List.mem_cons.mp h with h₂ | h₂
      · exact Or.inr (h₂ ▸ List.mem_cons_self _ _)
      · rcases ih h₂ with h₃ | h₃
        · exact Or.inl h₃
        · exact Or.inr (List.mem_cons_of_mem _ h₃)

theorem keys_nodup_dictInsert {m : List (String × α)} {k : String} {v : α}
    (h : (m.map Prod.fst).Nodup) : ((dictInsert m k v).map Prod.fst).Nodup := by
  induction m with
  | nil => simp [dictInsert]
  | cons e rest ih =>
    obtain ⟨k₁, v₁⟩ := e
    simp only [List.map_cons, List.nodup_cons] at h
    by_cases h₁ : k₁ = k
    · subst h₁
      rw [dictInsert, if_pos rfl]
      simp only [List.map_cons, List.nodup_cons]
      exact h
    · have hrest := ih h.2
      have hk₁ : k₁ ∉ (dictInsert rest k v).map Prod.fst := by
        intro hmem
        rcases List.mem_map.mp hmem with ⟨e₂, he₂, hfst⟩
        rcases mem_dictInsert he₂ with h₂ | h₂
        · apply h₁
          rw [h₂] at hfst
          exact hfst.symm
        · exact h.1 (hfst ▸ List.mem_map_of_mem Prod.fst h₂)
      rw [dictInsert, if_neg h₁]
      simp only [List.map_cons, List.nodup_cons]
      exact ⟨hk₁, hrest⟩

theorem dictLookup_eq_some_of_mem {m : List (String × α)} {k : String} {v : α}
    (hnd : (m.map Prod.fst).Nodup) (h : (k, v) ∈ m) : dictLookup m k = some v := by
  induction m with
  | nil => simp at h
  | cons e rest ih =>
    obtain ⟨k₁, v₁⟩ := e
    simp only [List.map_cons, List.nodup_cons] at hnd
    rcases List.mem_cons.mp h with h₁ | h₁
    · cases h₁
      simp [dictLookup]
    · have hne : ¬ k₁ = k := by
        intro hkk
        exact hnd.1 (hkk ▸ List.mem_map_of_mem Prod.fst h₁)
      rw [dictLookup, if_neg hne]
      exact ih hnd.2 h₁

theorem mem_of_dictLookup_eq_some {m : List (String × α)} {k : String} {v : α}
    (h : dictLookup m k = some v) : (k, v) ∈ m := by
  induction m with
  | nil => simp [dictLookup] at h
  | cons e rest ih =>
    obtain ⟨k₁, v₁⟩ := e
    by_cases h₁ : k₁ = k
    · subst h₁
      rw [dictLookup, if_pos rfl, Option.some.injEq] at h
      exact h ▸ List.mem_cons_self _ _
    · rw [dictLookup, if_neg h₁] at h
      exact List.mem_cons_of_mem _ (ih h)

theorem dictContains_of_mem_keys {m : List (String × α)} {k : String}
    (h : k ∈ m.map Prod.fst) : dictContains m k = true := by
  induction m with
  | nil => simp at h
  | cons e rest ih =>
    obtain ⟨k₁, v₁⟩ := e
    by_cases h₁ : k₁ = k
    · simp [dictContains, dictLookup, h₁]
    · rcases List.mem_cons.mp h with h₂ | h₂
      · exact absurd h₂.symm h₁
      · have := ih h₂
        simpa [dictContains, dictLookup, h₁] using this

theorem mem_keys_of_dictContains {m : List (String × α)} {k : String}
    (h : dictContains m k = true) : k ∈ m.map Prod.fst := by
  rcases Option.isSome_iff_exists.mp h with ⟨v, hv⟩
  exact List.mem_map_of_mem Prod.fst (mem_of_dictLookup_eq_some hv)

theorem dictContains_iff_mem_keys {m : List (String × α)} {k : String} :
    dictContains m k = true ↔ k ∈ m.map Prod.fst :=
  ⟨mem_keys_of_dictContains, dictContains_of_mem_keys⟩

/-! ## buildMaps characterization -/

theorem mem_foldl_scanStep_fst {l : List File}
    {acc : List (String × File) × List (String × File)} {e : String × File}
    (h : e ∈ (l.foldl scanStep acc).1) :
    e ∈ acc.1 ∨ (e.2 ∈ l ∧ isJpg e.2 = true ∧ e.2.stem = e.1) := by
  induction l generalizing acc with
  | nil => exact Or.inl h
  | cons f rest ih =>
    rw [List.foldl_cons] at h
    rcases ih h with h₁ | h₁
    · unfold scanStep at h₁
      by_cases hj : isJpg f
      · rw [if_pos hj] at h₁
        rcases mem_dictInsert h₁ with h₂ | h₂
        · subst h₂
          exact Or.inr ⟨List.mem_cons_self _ _, hj, rfl⟩
        · exact Or.inl h₂
      · rw [if_neg hj] at h₁
        by_cases hm : isMp4 f
        · rw [if_pos hm] at h₁; exact Or.inl h₁
        · rw [if_neg hm] at h₁; exact Or.inl h₁
    · exact Or.inr ⟨List.mem_cons_of_mem _ h₁.1, h₁.2⟩

theorem mem_foldl_scanStep_snd {l : List File}
    {acc : List (String × File) × List (String × File)} {e : String × File}
    (h : e ∈ (l.foldl scanStep acc).2) :
    e ∈ acc.2 ∨ (e.2 ∈ l ∧ isMp4 e.2 = true ∧ e.2.stem = e.1) := by
  induction l generalizing acc with
  | nil => exact Or.inl h
  | cons f rest ih =>
    rw [List.foldl_cons] at h
    rcases ih h with h₁ | h₁
    · unfold scanStep at h₁
      by_cases hj : isJpg f
      · rw [if_pos hj] at h₁; exact Or.inl h₁
      · rw [if_neg hj] at h₁
        by_cases hm : isMp4 f
        · rw [if_pos hm] at h₁
          rcases mem_dictInsert h₁ with h₂ | h₂
          · subst h₂
            exact Or.inr ⟨List.mem_cons_self _ _, hm, rfl⟩
          · exact Or.inl h₂
        · rw [if_neg hm] at h₁; exact Or.inl h₁
    · exact Or.inr ⟨List.mem_cons_of_mem _ h₁.1, h₁.2⟩

theorem keys_nodup_foldl_scanStep_fst (l : List File)
    (acc : List (String × File) × List (String × File))
    (h : (acc.1.map Prod.fst).Nodup) : (((l.foldl scanStep acc).1).map Prod.fst).Nodup := by
  induction l generalizing acc with
  | nil => exact h
  | cons f rest ih =>
    rw [List.foldl_cons]
    apply ih
    unfold scanStep
    by_cases hj : isJpg f
    · rw [if_pos hj]; exact keys_nodup_dictInsert h
    · rw [if_neg hj]
      by_cases hm : isMp4 f
      · rw [if_pos hm]; exact h
      · rw [if_neg hm]; exact h

theorem keys_nodup_foldl_scanStep_snd (l : List File)
    (acc : List (String × File) × List (String × File))
    (h : (acc.2.map Prod.fst).Nodup) : (((l.foldl scanStep acc).2).map Prod.fst).Nodup := by
  induction l generalizing acc with
  | nil => exact h
  | cons f rest ih =>
    rw [List.foldl_cons]
    apply ih
    unfold scanStep
    by_cases hj : isJpg f
    · rw [if_pos hj]; exact h
    · rw [if_neg hj]
      by_cases hm : isMp4 f
      · rw [if_pos hm]; exact keys_nodup_dictInsert h
      · rw [if_neg hm]; exact h

theorem keys_nodup_buildMaps_fst (l : List File) :
    ((buildMaps l).1.map Prod.fst).Nodup :=
  keys_nodup_foldl_scanStep_fst l ([], []) (by simp)

theorem keys_nodup_buildMaps_snd (l : List File) :
    ((buildMaps l).2.map Prod.fst).Nodup :=
  keys_nodup_foldl_scanStep_snd l ([], []) (by simp)

theorem lookup_persist_foldl_scanStep_fst (l : List File)
    (acc : List (String × File) × List (String × File)) (s : String)
    (h : (dictLookup acc.1 s).isSome) : (dictLookup ((l.foldl scanStep acc).1) s).isSome := by
  induction l generalizing acc with
  | nil => exact h
  | cons f rest ih =>
    rw [List.foldl_cons]
    apply ih
    unfold scanStep
    by_cases hj : isJpg f
    · rw [if_pos hj]
      simp only [dictLookup_dictInsert]
      by_cases hs : s = f.stem
      · rw [if_pos hs]; rfl
      · rw [if_neg hs]; exact h
    · rw [if_neg hj]
      by_cases hm : isMp4 f
      · rw [if_pos hm]; exact h
      · rw [if_neg hm]; exact h

theorem lookup_persist_foldl_scanStep_snd (l : List File)
    (acc : List (String × File) × List (String × File)) (s : String)
    (h : (dictLookup acc.2 s).isSome) : (dictLookup ((l.foldl scanStep acc).2) s).isSome := by
  induction l generalizing acc with
  | nil => exact h
  | cons f rest ih =>
    rw [List.foldl_cons]
    apply ih
    unfold scanStep
    by_cases hj : isJpg f
    · rw [if_pos hj]; exact h
    · rw [if_neg hj]
      by_cases hm : isMp4 f
      · rw [if_pos hm]
        simp only [dictLookup_dictInsert]
        by_cases hs : s = f.stem
        · rw [if_pos hs]; rfl
        · rw [if_neg hs]; exact h
      · rw [if_neg hm]; exact h

theorem lookup_isSome_foldl_scanStep_fst {l : List File} {f : File}
    (acc : List (String × File) × List (String × File))
    (hf : f ∈ l) (hj : isJpg f = true) :
    (dictLookup ((l.foldl scanStep acc).1) f.stem).isSome := by
  induction l generalizing acc with
  | nil => simp at hf
  | cons g rest ih =>
    rw [List.foldl_cons]
    rcases List.mem_cons.mp hf with h₁ | h₁
    · subst h₁
      apply lookup_persist_foldl_scanStep_fst
      unfold scanStep
      rw [if_pos hj]
      simp [dictLookup_dictInsert]
    · exact ih _ h₁

theorem lookup_isSome_foldl_scanStep_snd {l : List File} {f : File}
    (acc : List (String × File) × List (String × File))
    (hf : f ∈ l) (hm : isMp4 f = true) :
    (dictLookup ((l.foldl scanStep acc).2) f.stem).isSome := by
  induction l generalizing acc with
  | nil => simp at hf
  | cons g rest ih =>
    rw [List.foldl_cons]
    rcases List.mem_cons.mp hf with h₁ | h₁
    · subst h₁
      apply lookup_persist_foldl_scanStep_snd
      unfold scanStep
      have hj : isJpg f = false := by
        have hext : strLower f.ext = ".mp4" := by
          have h₂ := hm
          unfold isMp4 at h₂
          simpa using h₂
        unfold isJpg
        rw [hext]
        rfl
      rw [if_neg (by simp [hj]), if_pos hm]
      simp [dictLookup_dictInsert]
    · exact ih _ h₁

/-! ## Extension facts -/

theorem isJpg_ext {f : File} (h : isJpg f = true) : strLower f.ext = ".jpg" := by
  unfold isJpg at h
  simpa using h

theorem isMp4_ext {f : File} (h : isMp4 f = true) : strLower f.ext = ".mp4" := by
  unfold isMp4 at h
  simpa using h

theorem not_isJpg_and_isMp4 {f : File} (hj : isJpg f = true) (hm : isMp4 f = true) : False := by
  have h₁ := isJpg_ext hj
  have h₂ := isMp4_ext hm
  rw [h₁] at h₂
  exact absurd h₂ (by decide)

theorem relevantExt_of_isJpg {f : File} (h : isJpg f = true) : relevantExt f = true := by
  simp [relevantExt, h]

theorem relevantExt_of_isMp4 {f : File} (h : isMp4 f = true) : relevantExt f = true := by
  simp [relevantExt, h]

/-! ## Lookup identification under no collisions -/

theorem dictLookup_buildMaps_fst {l : List File} (hcol : noCollision l) {f : File}
    (hf : f ∈ l) (hj : isJpg f = true) : dictLookup (buildMaps l).1 f.stem = some f := by
  have hs := lookup_isSome_foldl_scanStep_fst ([], []) hf hj
  rcases Option.isSome_iff_exists.mp hs with ⟨v, hv⟩
  have hmem : (f.stem, v) ∈ (l.foldl scanStep ([], [])).1 := mem_of_dictLookup_eq_some hv
  rcases mem_foldl_scanStep_fst hmem with h₁ | h₁
  · simp at h₁
  · obtain ⟨hvl, hvj, hvs⟩ := h₁
    have hvf : v = f :=
      hcol v hvl f hf hvs (by rw [isJpg_ext hvj, isJpg_ext hj]) (relevantExt_of_isJpg hvj)
    show dictLookup (l.foldl scanStep ([], [])).1 f.stem = some f
    rw [hv, hvf]

theorem dictLookup_buildMaps_snd {l : List File} (hcol : noCollision l) {f : File}
    (hf : f ∈ l) (hm : isMp4 f = true) : dictLookup (buildMaps l).2 f.stem = some f := by
  have hs := lookup_isSome_foldl_scanStep_snd ([], []) hf hm
  rcases Option.isSome_iff_exists.mp hs with ⟨v, hv⟩
  have hmem : (f.stem, v) ∈ (l.foldl scanStep ([], [])).2 := mem_of_dictLookup_eq_some hv
  rcases mem_foldl_scanStep_snd hmem with h₁ | h₁
  · simp at h₁
  · obtain ⟨hvl, hvm, hvs⟩ := h₁
    have hvf : v = f :=
      hcol v hvl f hf hvs (by rw [isMp4_ext hvm, isMp4_ext hm]) (relevantExt_of_isMp4 hvm)
    show dictLookup (l.foldl scanStep ([], [])).2 f.stem = some f
    rw [hv, hvf]

theorem mem_buildMaps_fst {l : List File} {e : String × File}
    (h : e ∈ (buildMaps l).1) : e.2 ∈ l ∧ isJpg e.2 = true ∧ e.2.stem = e.1 := by
  rcases mem_foldl_scanStep_fst (show e ∈ (l.foldl scanStep ([], [])).1 from h) with h₁ | h₁
  · simp at h₁
  · exact h₁

theorem mem_buildMaps_snd {l : List File} {e : String × File}
    (h : e ∈ (buildMaps l).2) : e.2 ∈ l ∧ isMp4 e.2 = true ∧ e.2.stem = e.1 := by
  rcases mem_foldl_scanStep_snd (show e ∈ (l.foldl scanStep ([], [])).2 from h) with h₁ | h₁
  · simp at h₁
  · exact h₁

theorem mem_keys_buildMaps_fst {l : List File} {f : File}
    (hf : f ∈ l) (hj : isJpg f = true) : f.stem ∈ (buildMaps l).1.map Prod.fst := by
  have hs := lookup_isSome_foldl_scanStep_fst ([], []) hf hj
  rcases Option.isSome_iff_exists.mp hs with ⟨v, hv⟩
  exact List.mem_map_of_mem Prod.fst
    (mem_of_dictLookup_eq_some (show dictLookup (buildMaps l).1 f.stem = some v from hv))

theorem mem_keys_buildMaps_snd {l : List File} {f : File}
    (hf : f ∈ l) (hm : isMp4 f = true) : f.stem ∈ (buildMaps l).2.map Prod.fst := by
  have hs := lookup_isSome_foldl_scanStep_snd ([], []) hf hm
  rcases Option.isSome_iff_exists.mp hs with ⟨v, hv⟩
  exact List.mem_map_of_mem Prod.fst
    (mem_of_dictLookup_eq_some (show dictLookup (buildMaps l).2 f.stem = some v from hv))

/-! ## Scanner component characterizations -/

theorem mem_scanPairs_iff {l : List File} {p : File × File} :
    p ∈ scanPairs l ↔
      ∃ s, (s, p.1) ∈ (buildMaps l).1 ∧ dictLookup (buildMaps l).2 s = some p.2 := by
  unfold scanPairs
  rw [List.mem_filterMap]
  constructor
  · rintro ⟨e, he, hfe⟩
    rw [Option.map_eq_some'] at hfe
    rcases hfe with ⟨m, hm, hpm⟩
    cases hpm
    exact ⟨e.1, by simpa using he, hm⟩
  · rintro ⟨s, hsj, hsm⟩
    exact ⟨(s, p.1), hsj, by rw [hsm]; simp⟩

theorem mem_paired_stems_iff {l : List File} {s : String} :
    s ∈ paired_stems l ↔
      s ∈ (buildMaps l).1.map Prod.fst ∧ dictContains (buildMaps l).2 s = true := by
  unfold paired_stems
  rw [List.mem_filterMap]
  constructor
  · rintro ⟨e, he, hfe⟩
    by_cases hc : dictContains (buildMaps l).2 e.1 = true
    · rw [if_pos hc] at hfe
      cases hfe
      exact ⟨List.mem_map_of_mem Prod.fst he, hc⟩
    · rw [if_neg hc] at hfe
      cases hfe
  · rintro ⟨hkeys, hc⟩
    rcases List.mem_map.mp hkeys with ⟨e, he, hfst⟩
    subst hfst
    exact ⟨e, he, if_pos hc⟩

theorem mem_scanUnpaired_iff {l : List File} {f : File} :
    f ∈ scanUnpaired l ↔
      (∃ e ∈ (buildMaps l).1, e.1 ∉ paired_stems l ∧ e.2 = f) ∨
      (∃ e ∈ (buildMaps l).2, e.1 ∉ paired_stems l ∧ e.2 = f) := by
  unfold scanUnpaired
  rw [List.mem_append, List.mem_filterMap, List.mem_filterMap]
  constructor
  · rintro (⟨e, he, hfe⟩ | ⟨e, he, hfe⟩)
    · by_cases hc : e.1 ∈ paired_stems l
      · rw [if_pos hc] at hfe; cases hfe
      · rw [if_neg hc] at hfe
        cases hfe
        exact Or.inl ⟨e, he, hc, rfl⟩
    · by_cases hc : e.1 ∈ paired_stems l
      · rw [if_pos hc] at hfe; cases hfe
      · rw [if_neg hc] at hfe
        cases hfe
        exact Or.inr ⟨e, he, hc, rfl⟩
  · rintro (⟨e, he, hc, hef⟩ | ⟨e, he, hc, hef⟩)
    · exact Or.inl ⟨e, he, by rw [if_neg hc, hef]⟩
    · exact Or.inr ⟨e, he, by rw [if_neg hc, hef]⟩

/-! ## Nodup structure of the scanner output -/

theorem map_filterMap_sublist {α β γ : Type _} (f : α → Option β) (g : β → γ) (key : α → γ)
    (m : List α) (h : ∀ a ∈ m, ∀ b, f a = some b → g b = key a) :
    ((m.filterMap f).map g).Sublist (m.map key) := by
  induction m with
  | nil => simp
  | cons a rest ih =>
    have hrest := ih fun x hx b hb => h x (List.mem_cons_of_mem _ hx) b hb
    cases hfa : f a with
    | none =>
      rw [List.filterMap_cons_none hfa, List.map_cons]
      exact hrest.cons _
    | some b =>
      rw [List.filterMap_cons_some hfa, List.map_cons, List.map_cons,
        h a (List.mem_cons_self _ _) b hfa]
      exact hrest.cons₂ _

theorem stems_nodup_scanPairs (l : List File) :
    ((scanPairs l).map fun p => p.1.stem).Nodup := by
  have hsub := map_filterMap_sublist
    (fun e => (dictLookup (buildMaps l).2 e.1).map fun m => (e.2, m))
    (fun p => p.1.stem) Prod.fst ((buildMaps l).1) ?_
  · exact hsub.nodup (keys_nodup_buildMaps_fst l)
  · intro e he p hp
    rw [Option.map_eq_some'] at hp
    rcases hp with ⟨m, _, hpm⟩
    cases hpm
    exact (mem_buildMaps_fst he).2.2

theorem goodPairs_scanPairs (l : List File) : goodPairs (scanPairs l) := by
  intro p hp
  rcases mem_scanPairs_iff.mp hp with ⟨s, hj, hm⟩
  have h₁ := mem_buildMaps_fst hj
  have h₂ := mem_buildMaps_snd (mem_of_dictLookup_eq_some hm)
  exact ⟨h₁.2.1, h₂.2.1, by rw [h₂.2.2, h₁.2.2]⟩

theorem mem_pairFiles {ps : List (File × File)} {x : File} (h : x ∈ pairFiles ps) :
    ∃ q ∈ ps, x = q.1 ∨ x = q.2 := by
  rcases List.mem_flatMap.mp (show x ∈ ps.flatMap (fun q => [q.1, q.2]) from h) with
    ⟨q, hq, hxq⟩
  simp only [List.mem_cons, List.mem_singleton] at hxq
  rcases hxq with h₁ | h₁
  · exact ⟨q, hq, Or.inl h₁⟩
  · rcases h₁ with h₂ | h₂
    · exact ⟨q, hq, Or.inr h₂⟩
    · simp at h₂

theorem pairFiles_mem_left {ps : List (File × File)} {q : File × File} (h : q ∈ ps) :
    q.1 ∈ pairFiles ps :=
  List.mem_flatMap.mpr ⟨q, h, by simp⟩

theorem pairFiles_mem_right {ps : List (File × File)} {q : File × File} (h : q ∈ ps) :
    q.2 ∈ pairFiles ps :=
  List.mem_flatMap.mpr ⟨q, h, by simp⟩

theorem pairFiles_nodup_of (ps : List (File × File)) (hg : goodPairs ps)
    (hs : (ps.map fun p => p.1.stem).Nodup) : (pairFiles ps).Nodup := by
  induction ps with
  | nil => simp [pairFiles]
  | cons p rest ih =>
    simp only [List.map_cons, List.nodup_cons] at hs
    have hgrest : goodPairs rest := fun q hq => hg q (List.mem_cons_of_mem _ hq)
    have hrest := ih hgrest hs.2
    have hgp := hg p (List.mem_cons_self _ _)
    have hrw : pairFiles (p :: rest) = p.1 :: p.2 :: pairFiles rest := by
      simp [pairFiles]
    rw [hrw]
    refine List.nodup_cons.mpr ⟨?_, List.nodup_cons.mpr ⟨?_, hrest⟩⟩
    · intro hmem₁
      rcases List.mem_cons.mp hmem₁ with h₁ | h₁
      · exact not_isJpg_and_isMp4 (h₁ ▸ hgp.1) hgp.2.1
      · rcases mem_pairFiles h₁ with ⟨q, hq, hxq⟩
        have hgq := hgrest q hq
        apply hs.1
        rcases hxq with h₂ | h₂
        · exact h₂ ▸ List.mem_map_of_mem (fun p => p.1.stem) hq
        · have : p.1.stem = q.1.stem := by rw [h₂, hgq.2.2]
          exact this ▸ List.mem_map_of_mem (fun p => p.1.stem) hq
    · intro hmem₁
      rcases mem_pairFiles hmem₁ with ⟨q, hq, hxq⟩
      have hgq := hgrest q hq
      rcases hxq with h₂ | h₂
      · exact not_isJpg_and_isMp4 hgq.1 (h₂ ▸ hgp.2.1)
      · apply hs.1
        have : p.1.stem = q.1.stem := by rw [← hgp.2.2, h₂, hgq.2.2]
        exact this ▸ List.mem_map_of_mem (fun p => p.1.stem) hq

theorem scanUnpaired_jpg_part {l : List File} {f : File}
    (h : f ∈ (buildMaps l).1.filterMap
      fun e => if e.1 ∈ paired_stems l then none else some e.2) :
    f ∈ l ∧ isJpg f = true ∧ f.stem ∉ paired_stems l := by
  rcases List.mem_filterMap.mp h with ⟨e, he, hfe⟩
  have hmem := mem_buildMaps_fst he
  by_cases hc : e.1 ∈ paired_stems l
  · rw [if_pos hc] at hfe; cases hfe
  · rw [if_neg hc] at hfe
    cases hfe
    exact ⟨hmem.1, hmem.2.1, hmem.2.2 ▸ hc⟩

theorem scanUnpaired_mp4_part {l : List File} {f : File}
    (h : f ∈ (buildMaps l).2.filterMap
      fun e => if e.1 ∈ paired_stems l then none else some e.2) :
    f ∈ l ∧ isMp4 f = true ∧ f.stem ∉ paired_stems l := by
  rcases List.mem_filterMap.mp h with ⟨e, he, hfe⟩
  have hmem := mem_buildMaps_snd he
  by_cases hc : e.1 ∈ paired_stems l
  · rw [if_pos hc] at hfe; cases hfe
  · rw [if_neg hc] at hfe
    cases hfe
    exact ⟨hmem.1, hmem.2.1, hmem.2.2 ▸ hc⟩

theorem scanUnpaired_nodup (l : List File) : (scanUnpaired l).Nodup := by
  have h₁ : (((buildMaps l).1.filterMap
      fun e => if e.1 ∈ paired_stems l then none else some e.2).map File.stem).Nodup := by
    have hsub := map_filterMap_sublist
      (fun e => if e.1 ∈ paired_stems l then none else some e.2)
      File.stem Prod.fst ((buildMaps l).1) ?_
    · exact hsub.nodup (keys_nodup_buildMaps_fst l)
    · intro e he b hb
      by_cases hc : e.1 ∈ paired_stems l
      · simp [if_pos hc] at hb
      · simp only [if_neg hc, Option.some.injEq] at hb
        subst hb
        exact (mem_buildMaps_fst he).2.2
  have h₂ : (((buildMaps l).2.filterMap
      fun e => if e.1 ∈ paired_stems l then none else some e.2).map File.stem).Nodup := by
    have hsub := map_filterMap_sublist
      (fun e => if e.1 ∈ paired_stems l then none else some e.2)
      File.stem Prod.fst ((buildMaps l).2) ?_
    · exact hsub.nodup (keys_nodup_buildMaps_snd l)
    · intro e he b hb
      by_cases hc : e.1 ∈ paired_stems l
      · simp [if_pos hc] at hb
      · simp only [if_neg hc, Option.some.injEq] at hb
        subst hb
        exact (mem_buildMaps_snd he).2.2
  rw [scanUnpaired, List.nodup_append]
  refine ⟨h₁.of_map, h₂.of_map, ?_⟩
  intro x hx₁ hx₂
  exact not_isJpg_and_isMp4 (scanUnpaired_jpg_part hx₁).2.1 (scanUnpaired_mp4_part hx₂).2.1

theorem paired_stems_of_pair {l : List File} {p : File × File} (hq : p ∈ scanPairs l) :
    p.1.stem ∈ paired_stems l ∧ p.2.stem ∈ paired_stems l := by
  rcases mem_scanPairs_iff.mp hq with ⟨s, hj, hm⟩
  have h₁ := mem_buildMaps_fst hj
  have h₂ := mem_buildMaps_snd (mem_of_dictLookup_eq_some hm)
  have hps : s ∈ paired_stems l := by
    apply mem_paired_stems_iff.mpr
    refine ⟨List.mem_map_of_mem Prod.fst hj, ?_⟩
    unfold dictContains
    rw [hm]
    rfl
  exact ⟨h₁.2.2 ▸ hps, h₂.2.2 ▸ hps⟩

theorem pairFiles_scanUnpaired_disjoint (l : List File) :
    ∀ x ∈ pairFiles (scanPairs l), x ∉ scanUnpaired l := by
  intro x hx hxu
  rcases mem_pairFiles hx with ⟨q, hq, hxq⟩
  rcases mem_scanPairs_iff.mp hq with ⟨s, hj, hm⟩
  have h₁ := mem_buildMaps_fst hj
  have h₂ := mem_buildMaps_snd (mem_of_dictLookup_eq_some hm)
  have hps := paired_stems_of_pair hq
  rcases hxq with h₃ | h₃
  · subst h₃
    rcases mem_scanUnpaired_iff.mp hxu with ⟨e, he, hnp, hef⟩ | ⟨e, he, hnp, hef⟩
    · have hme := mem_buildMaps_fst he
      apply hnp
      have hes : e.1 = q.1.stem := by rw [← hme.2.2, hef]
      rw [hes]
      exact hps.1
    · have hme := mem_buildMaps_snd he
      exact not_isJpg_and_isMp4 (by rw [hef]; exact h₁.2.1) hme.2.1
  · subst h₃
    rcases mem_scanUnpaired_iff.mp hxu with ⟨e, he, hnp, hef⟩ | ⟨e, he, hnp, hef⟩
    · have hme := mem_buildMaps_fst he
      exact not_isJpg_and_isMp4 hme.2.1 (by rw [hef]; exact h₂.2.1)
    · have hme := mem_buildMaps_snd he
      apply hnp
      have hes : e.1 = q.2.stem := by rw [← hme.2.2, hef]
      rw [hes]
      exact hps.2

theorem scanOutput_nodup (l : List File) :
    (pairFiles (scanPairs l) ++ scanUnpaired l).Nodup := by
  rw [List.nodup_append]
  exact ⟨pairFiles_nodup_of _ (goodPairs_scanPairs l) (stems_nodup_scanPairs l),
    scanUnpaired_nodup l, pairFiles_scanUnpaired_disjoint l⟩

theorem mem_scanOutput_iff {l : List File} (hcol : noCollision l) {f : File} :
    f ∈ pairFiles (scanPairs l) ++ scanUnpaired l ↔ f ∈ l ∧ relevantExt f = true := by
  rw [List.mem_append]
  constructor
  · rintro (hx | hx)
    · rcases mem_pairFiles hx with ⟨q, hq, hxq⟩
      rcases mem_scanPairs_iff.mp hq with ⟨s, hj, hm⟩
      have h₁ := mem_buildMaps_fst hj
      have h₂ := mem_buildMaps_snd (mem_of_dictLookup_eq_some hm)
      rcases hxq with h₃ | h₃
      · subst h₃; exact ⟨h₁.1, relevantExt_of_isJpg h₁.2.1⟩
      · subst h₃; exact ⟨h₂.1, relevantExt_of_isMp4 h₂.2.1⟩
    · rcases mem_scanUnpaired_iff.mp hx with ⟨e, he, _, hef⟩ | ⟨e, he, _, hef⟩
      · have hme := mem_buildMaps_fst he
        exact ⟨hef ▸ hme.1, relevantExt_of_isJpg (hef ▸ hme.2.1)⟩
      · have hme := mem_buildMaps_snd he
        exact ⟨hef ▸ hme.1, relevantExt_of_isMp4 (hef ▸ hme.2.1)⟩
  · rintro ⟨hf, hrel⟩
    unfold relevantExt at hrel
    rcases Bool.or_eq_true_iff.mp hrel with hj | hm4
    · have hlk := dictLookup_buildMaps_fst hcol hf hj
      have hent : (f.stem, f) ∈ (buildMaps l).1 := mem_of_dictLookup_eq_some hlk
      by_cases hc : dictContains (buildMaps l).2 f.stem = true
      · rcases Option.isSome_iff_exists.mp hc with ⟨m, hm⟩
        have hpmem : (f, m) ∈ scanPairs l := mem_scanPairs_iff.mpr ⟨f.stem, hent, hm⟩
        exact Or.inl (pairFiles_mem_left hpmem)
      · refine Or.inr (mem_scanUnpaired_iff.mpr (Or.inl ⟨(f.stem, f), hent, ?_, rfl⟩))
        intro hps
        exact hc (mem_paired_stems_iff.mp hps).2
    · have hlk := dictLookup_buildMaps_snd hcol hf hm4
      by_cases hc : f.stem ∈ (buildMaps l).1.map Prod.fst
      · rcases List.mem_map.mp hc with ⟨e, he, hefst⟩
        have hpmem : (e.2, f) ∈ scanPairs l := by
          apply mem_scanPairs_iff.mpr
          refine ⟨e.1, ?_, by rw [hefst]; exact hlk⟩
          rw [Prod.mk.eta]
          exact he
        exact Or.inl (pairFiles_mem_right hpmem)
      · refine Or.inr (mem_scanUnpaired_iff.mpr
          (Or.inr ⟨(f.stem, f), mem_of_dictLookup_eq_some hlk, ?_, rfl⟩))
        intro hps
        exact hc (mem_paired_stems_iff.mp hps).1

/-! ## Sorting infrastructure -/

theorem sorted_key_eq {α : Type _} (key : α → String) {l₁ l₂ : List α} (hp : l₁.Perm l₂)
    (hs₁ : l₁.Pairwise fun a b => key a ≤ key b)
    (hs₂ : l₂.Pairwise fun a b => key a ≤ key b)
    (hk : (l₁.map key).Nodup) : l₁ = l₂ := by
  have hk₂ : (l₂.map key).Nodup := ((hp.map key)).nodup hk
  have hne₁ : l₁.Pairwise fun a b => key a ≠ key b := List.pairwise_map.mp hk
  have hne₂ : l₂.Pairwise fun a b => key a ≠ key b := List.pairwise_map.mp hk₂
  have hlt₁ : l₁.Pairwise fun a b => key a < key b :=
    (hs₁.and hne₁).imp fun h => lt_of_le_of_ne h.1 h.2
  have hlt₂ : l₂.Pairwise fun a b => key a < key b :=
    (hs₂.and hne₂).imp fun h => lt_of_le_of_ne h.1 h.2
  haveI : IsAntisymm α fun a b => key a < key b :=
    ⟨fun a b h₁ h₂ => absurd (h₁.trans h₂) (lt_irrefl _)⟩
  exact List.eq_of_perm_of_sorted hp hlt₁ hlt₂

theorem insertionSort_eq_of_perm_of_key {α : Type _} (key : α → String)
    (r : α → α → Prop) [DecidableRel r] [IsTotal α r] [IsTrans α r]
    (hr : ∀ a b, r a b ↔ key a ≤ key b)
    {xs ys : List α} (hp : xs.Perm ys) (hk : (xs.map key).Nodup) :
    List.insertionSort r xs = List.insertionSort r ys := by
  apply sorted_key_eq key
  · exact ((List.perm_insertionSort r xs).trans hp).trans
      (List.perm_insertionSort r ys).symm
  · exact (List.sorted_insertionSort r xs).imp fun h => (hr _ _).mp h
  · exact (List.sorted_insertionSort r ys).imp fun h => (hr _ _).mp h
  · exact (((List.perm_insertionSort r xs).map key).symm).nodup hk

/-! ## Permutation invariance of the scanner -/

theorem noCollision_of_perm {l₁ l₂ : List File} (hp : l₁.Perm l₂)
    (hcol : noCollision l₂) : noCollision l₁ :=
  fun f hf g hg h₁ h₂ h₃ => hcol f (hp.subset hf) g (hp.subset hg) h₁ h₂ h₃

theorem mem_iff_dictLookup {m : List (String × α)} (hnd : (m.map Prod.fst).Nodup)
    {e : String × α} : e ∈ m ↔ dictLookup m e.1 = some e.2 := by
  constructor
  · intro h
    exact dictLookup_eq_some_of_mem hnd (by rw [Prod.mk.eta]; exact h)
  · intro h
    have := mem_of_dictLookup_eq_some h
    rw [Prod.mk.eta] at this
    exact this

theorem dictLookup_buildMaps_fst_iff {l : List File} (hcol : noCollision l)
    {s : String} {v : File} :
    dictLookup (buildMaps l).1 s = some v ↔ v ∈ l ∧ isJpg v = true ∧ v.stem = s := by
  constructor
  · intro h
    have := mem_buildMaps_fst (mem_of_dictLookup_eq_some h)
    exact this
  · rintro ⟨hv, hj, rfl⟩
    exact dictLookup_buildMaps_fst hcol hv hj

theorem dictLookup_buildMaps_snd_iff {l : List File} (hcol : noCollision l)
    {s : String} {v : File} :
    dictLookup (buildMaps l).2 s = some v ↔ v ∈ l ∧ isMp4 v = true ∧ v.stem = s := by
  constructor
  · intro h
    exact mem_buildMaps_snd (mem_of_dictLookup_eq_some h)
  · rintro ⟨hv, hm, rfl⟩
    exact dictLookup_buildMaps_snd hcol hv hm

theorem dictLookup_buildMaps_fst_congr {l₁ l₂ : List File} (hp : l₁.Perm l₂)
    (hcol : noCollision l₂) (s : String) :
    dictLookup (buildMaps l₁).1 s = dictLookup (buildMaps l₂).1 s := by
  have hcol₁ := noCollision_of_perm hp hcol
  cases h₁ : dictLookup (buildMaps l₁).1 s with
  | some v =>
    have := (dictLookup_buildMaps_fst_iff hcol₁).mp h₁
    exact ((dictLookup_buildMaps_fst_iff hcol).mpr ⟨hp.subset this.1, this.2⟩).symm
  | none =>
    cases h₂ : dictLookup (buildMaps l₂).1 s with
    | some w =>
      have := (dictLookup_buildMaps_fst_iff hcol).mp h₂
      have hw := (dictLookup_buildMaps_fst_iff hcol₁).mpr ⟨hp.symm.subset this.1, this.2⟩
      rw [h₁] at hw
      cases hw
    | none => rfl

theorem dictLookup_buildMaps_snd_congr {l₁ l₂ : List File} (hp : l₁.Perm l₂)
    (hcol : noCollision l₂) (s : String) :
    dictLookup (buildMaps l₁).2 s = dictLookup (buildMaps l₂).2 s := by
  have hcol₁ := noCollision_of_perm hp hcol
  cases h₁ : dictLookup (buildMaps l₁).2 s with
  | some v =>
    have := (dictLookup_buildMaps_snd_iff hcol₁).mp h₁
    exact ((dictLookup_buildMaps_snd_iff hcol).mpr ⟨hp.subset this.1, this.2⟩).symm
  | none =>
    cases h₂ : dictLookup (buildMaps l₂).2 s with
    | some w =>
      have := (dictLookup_buildMaps_snd_iff hcol).mp h₂
      have hw := (dictLookup_buildMaps_snd_iff hcol₁).mpr ⟨hp.symm.subset this.1, this.2⟩
      rw [h₁] at hw
      cases hw
    | none => rfl

theorem buildMaps_fst_perm {l₁ l₂ : List File} (hp : l₁.Perm l₂)
    (hcol : noCollision l₂) : ((buildMaps l₁).1).Perm ((buildMaps l₂).1) := by
  have hcol₁ := noCollision_of_perm hp hcol
  apply (List.perm_ext_iff_of_nodup
    ((keys_nodup_buildMaps_fst l₁).of_map) ((keys_nodup_buildMaps_fst l₂).of_map)).mpr
  intro e
  rw [mem_iff_dictLookup (keys_nodup_buildMaps_fst l₁),
    mem_iff_dictLookup (keys_nodup_buildMaps_fst l₂),
    dictLookup_buildMaps_fst_congr hp hcol]

theorem buildMaps_snd_perm {l₁ l₂ : List File} (hp : l₁.Perm l₂)
    (hcol : noCollision l₂) : ((buildMaps l₁).2).Perm ((buildMaps l₂).2) := by
  have hcol₁ := noCollision_of_perm hp hcol
  apply (List.perm_ext_iff_of_nodup
    ((keys_nodup_buildMaps_snd l₁).of_map) ((keys_nodup_buildMaps_snd l₂).of_map)).mpr
  intro e
  rw [mem_iff_dictLookup (keys_nodup_buildMaps_snd l₁),
    mem_iff_dictLookup (keys_nodup_buildMaps_snd l₂),
    dictLookup_buildMaps_snd_congr hp hcol]

theorem scanPairs_perm {l₁ l₂ : List File} (hp : l₁.Perm l₂)
    (hcol : noCollision l₂) : (scanPairs l₁).Perm (scanPairs l₂) := by
  unfold scanPairs
  have hstep : ((buildMaps l₂).1.filterMap fun e =>
      (dictLookup (buildMaps l₁).2 e.1).map fun m => (e.2, m)) =
      (buildMaps l₂).1.filterMap fun e =>
      (dictLookup (buildMaps l₂).2 e.1).map fun m => (e.2, m) :=
    List.filterMap_congr fun e _ => by rw [dictLookup_buildMaps_snd_congr hp hcol]
  exact hstep ▸ (buildMaps_fst_perm hp hcol).filterMap _

theorem mem_keys_buildMaps_fst_iff {l : List File} {s : String} :
    s ∈ (buildMaps l).1.map Prod.fst ↔ ∃ f, f ∈ l ∧ isJpg f = true ∧ f.stem = s := by
  constructor
  · intro h
    rcases List.mem_map.mp h with ⟨e, he, hfst⟩
    have := mem_buildMaps_fst he
    exact ⟨e.2, this.1, this.2.1, hfst ▸ this.2.2⟩
  · rintro ⟨f, hf, hj, rfl⟩
    exact mem_keys_buildMaps_fst hf hj

theorem mem_keys_buildMaps_snd_iff {l : List File} {s : String} :
    s ∈ (buildMaps l).2.map Prod.fst ↔ ∃ f, f ∈ l ∧ isMp4 f = true ∧ f.stem = s := by
  constructor
  · intro h
    rcases List.mem_map.mp h with ⟨e, he, hfst⟩
    have := mem_buildMaps_snd he
    exact ⟨e.2, this.1, this.2.1, hfst ▸ this.2.2⟩
  · rintro ⟨f, hf, hm, rfl⟩
    exact mem_keys_buildMaps_snd hf hm

theorem mem_paired_stems_congr {l₁ l₂ : List File} (hp : l₁.Perm l₂)
    (hcol : noCollision l₂) (s : String) :
    s ∈ paired_stems l₁ ↔ s ∈ paired_stems l₂ := by
  rw [mem_paired_stems_iff, mem_paired_stems_iff,
    mem_keys_buildMaps_fst_iff, mem_keys_buildMaps_fst_iff,
    dictContains, dictContains, dictLookup_buildMaps_snd_congr hp hcol]
  constructor
  · rintro ⟨⟨f, hf, hj, hs⟩, hc⟩
    exact ⟨⟨f, hp.subset hf, hj, hs⟩, hc⟩
  · rintro ⟨⟨f, hf, hj, hs⟩, hc⟩
    exact ⟨⟨f, hp.symm.subset hf, hj, hs⟩, hc⟩

theorem scanUnpaired_perm {l₁ l₂ : List File} (hp : l₁.Perm l₂)
    (hcol : noCollision l₂) : (scanUnpaired l₁).Perm (scanUnpaired l₂) := by
  unfold scanUnpaired
  apply List.Perm.append
  · have hstep : ((buildMaps l₂).1.filterMap fun e =>
        if e.1 ∈ paired_stems l₁ then none else some e.2) =
        (buildMaps l₂).1.filterMap fun e =>
        if e.1 ∈ paired_stems l₂ then none else some e.2 :=
      List.filterMap_congr fun e _ => if_congr (mem_paired_stems_congr hp hcol e.1) rfl rfl
    exact hstep ▸ (buildMaps_fst_perm hp hcol).filterMap _
  · have hstep : ((buildMaps l₂).2.filterMap fun e =>
        if e.1 ∈ paired_stems l₁ then none else some e.2) =
        (buildMaps l₂).2.filterMap fun e =>
        if e.1 ∈ paired_stems l₂ then none else some e.2 :=
      List.filterMap_congr fun e _ => if_congr (mem_paired_stems_congr hp hcol e.1) rfl rfl
    exact hstep ▸ (buildMaps_snd_perm hp hcol).filterMap _

theorem mem_scanUnpaired_mem {l : List File} {f : File} (h : f ∈ scanUnpaired l) :
    f ∈ l := by
  rcases List.mem_append.mp (show f ∈ _ ++ _ from h) with h₁ | h₁
  · exact (scanUnpaired_jpg_part h₁).1
  · exact (scanUnpaired_mp4_part h₁).1

theorem scanUnpaired_names_nodup {l : List File} (hN : (l.map File.name).Nodup) :
    ((scanUnpaired l).map File.name).Nodup := by
  have hinj := List.inj_on_of_nodup_map hN
  apply List.Nodup.map_on
  · intro x hx y hy hxy
    exact hinj (mem_scanUnpaired_mem hx) (mem_scanUnpaired_mem hy) hxy
  · exact scanUnpaired_nodup l

/-! ## Output-name injectivity -/

theorem string_append_inj_of_affix {pre suf s t : String}
    (h : pre ++ s ++ suf = pre ++ t ++ suf) : s = t := by
  have hd := congrArg String.data h
  simp only [String.data_append] at hd
  have h₁ := List.append_cancel_right hd
  have h₂ := List.append_cancel_left h₁
  exact String.toList_inj.mp h₂

theorem live_last_char_jpg (u : String) :
    ("Live_" ++ u ++ ".jpg").data.getLast? = some 'g' := by
  rw [String.data_append, String.data_append, List.getLast?_append]
  rfl

theorem live_last_char_mov (u : String) :
    ("Live_" ++ u ++ ".mov").data.getLast? = some 'v' := by
  rw [String.data_append, String.data_append, List.getLast?_append]
  rfl

theorem live_jpg_ne_mov (s t : String) : "Live_" ++ s ++ ".jpg" ≠ "Live_" ++ t ++ ".mov" := by
  intro h
  have h₁ := live_last_char_jpg s
  rw [h, live_last_char_mov t] at h₁
  exact absurd h₁ (by decide)

theorem mem_outputNames {ps : List (File × File)} {x : String} (h : x ∈ outputNames ps) :
    ∃ q ∈ ps, x = "Live_" ++ q.1.stem ++ ".jpg" ∨ x = "Live_" ++ q.1.stem ++ ".mov" := by
  rcases List.mem_flatMap.mp (show x ∈ ps.flatMap _ from h) with ⟨q, hq, hxq⟩
  simp only [List.mem_cons, List.mem_singleton, List.not_mem_nil, or_false] at hxq
  exact ⟨q, hq, hxq⟩

theorem outputNames_nodup_of (ps : List (File × File))
    (hs : (ps.map fun p => p.1.stem).Nodup) : (outputNames ps).Nodup := by
  induction ps with
  | nil => simp [outputNames]
  | cons p rest ih =>
    simp only [List.map_cons, List.nodup_cons] at hs
    have hrest := ih hs.2
    have hrw : outputNames (p :: rest) =
        ("Live_" ++ p.1.stem ++ ".jpg") :: ("Live_" ++ p.1.stem ++ ".mov") ::
          outputNames rest := by
      simp [outputNames]
    rw [hrw]
    refine List.nodup_cons.mpr ⟨?_, List.nodup_cons.mpr ⟨?_, hrest⟩⟩
    · intro hmem
      rcases List.mem_cons.mp hmem with h₁ | h₁
      · exact live_jpg_ne_mov _ _ h₁
      · rcases mem_outputNames h₁ with ⟨q, hq, hxq⟩
        rcases hxq with h₂ | h₂
        · have := string_append_inj_of_affix h₂
          exact hs.1 (this ▸ List.mem_map_of_mem (fun p => p.1.stem) hq)
        · exact live_jpg_ne_mov _ _ h₂
    · intro hmem
      rcases mem_outputNames hmem with ⟨q, hq, hxq⟩
      rcases hxq with h₂ | h₂
      · exact live_jpg_ne_mov _ _ h₂.symm
      · have := string_append_inj_of_affix h₂
        exact hs.1 (this ▸ List.mem_map_of_mem (fun p => p.1.stem) hq)

/-! ## Claim theorems: the scanner -/

/-- C1 (counterexample): for the listing containing the two distinct files
`a.jpg` and `a.JPG` (same stem, same case-insensitive extension), the file
`a.jpg` has a relevant extension and is a listing entry yet appears neither
in any pair nor among the unpaired assets: the dict insert overwrote it, so
the scanner output omits it, contrary to the claim's "no such file is
omitted — including listings containing two distinct files that share the
same stem and the same case-insensitive extension". -/
theorem scan_omits_case_variant_duplicate :
    (⟨"a", ".jpg"⟩ : File) ∈ [(⟨"a", ".jpg"⟩ : File), ⟨"a", ".JPG"⟩] ∧
    relevantExt ⟨"a", ".jpg"⟩ = true ∧
    (⟨"a", ".jpg"⟩ : File) ∉ pairFiles (scan_directory [⟨"a", ".jpg"⟩, ⟨"a", ".JPG"⟩]).1 ∧
    (⟨"a", ".jpg"⟩ : File) ∉ (scan_directory [⟨"a", ".jpg"⟩, ⟨"a", ".JPG"⟩]).2 := by
  decide

/-- C1 (amended): for every duplicate-free listing in which no two distinct
files share both their stem and their case-insensitive extension, the files
of the scanner's pairs together with its unpaired assets are exactly (as a
permutation, hence with no omission and no double classification) the
listing's entries whose extension lower-cases to .jpg or .mp4. -/
theorem scan_partition_reconstructs_input (l : List File) (hnd : l.Nodup)
    (hcol : noCollision l) :
    (pairFiles (scan_directory l).1 ++ (scan_directory l).2).Perm
      (l.filter relevantExt) := by
  have hpairs : (pairFiles (scan_directory l).1).Perm (pairFiles (scanPairs l)) :=
    List.Perm.flatMap_right _ (List.perm_insertionSort pairLe (scanPairs l))
  have hunp : ((scan_directory l).2).Perm (scanUnpaired l) :=
    List.perm_insertionSort nameLe (scanUnpaired l)
  refine (hpairs.append hunp).trans ?_
  apply (List.perm_ext_iff_of_nodup (scanOutput_nodup l) (hnd.filter _)).mpr
  intro x
  rw [List.mem_filter]
  exact mem_scanOutput_iff hcol

/-- Witness for the amended C1 at the listing `[A.jpg, A.mp4, C.jpg]`. -/
theorem scan_partition_reconstructs_input_witness :
    (pairFiles (scan_directory [(⟨"A", ".jpg"⟩ : File), ⟨"A", ".mp4"⟩, ⟨"C", ".jpg"⟩]).1 ++
      (scan_directory [(⟨"A", ".jpg"⟩ : File), ⟨"A", ".mp4"⟩, ⟨"C", ".jpg"⟩]).2).Perm
      ([(⟨"A", ".jpg"⟩ : File), ⟨"A", ".mp4"⟩, ⟨"C", ".jpg"⟩].filter relevantExt) :=
  scan_partition_reconstructs_input _ (by decide) (by decide)

/-- C7 (counterexample): the listings `[a.JPG, a.jpg]` and `[a.jpg, a.JPG]`
are permutations of each other (the same directory under two filesystem
iteration orders), yet the scanner returns different outputs: whichever
case-variant is seen last wins the dict slot, so the unpaired list differs. -/
theorem scan_output_depends_on_listing_order :
    ([(⟨"a", ".JPG"⟩ : File), ⟨"a", ".jpg"⟩]).Perm [⟨"a", ".jpg"⟩, ⟨"a", ".JPG"⟩] ∧
    scan_directory [(⟨"a", ".JPG"⟩ : File), ⟨"a", ".jpg"⟩] ≠
      scan_directory [⟨"a", ".jpg"⟩, ⟨"a", ".JPG"⟩] := by
  constructor
  · decide
  · decide

/-- C7 (amended): for every listing — collision or not — the scanner returns
the pairs sorted by stem ascending and the unpaired assets sorted by full
filename ascending; and provided the listing has pairwise-distinct filenames
and no stem+case-insensitive-extension collision, the output is additionally
identical for every permutation of the filesystem iteration order. -/
theorem scan_sorted_and_order_independent (l₁ l₂ : List File) (hp : l₁.Perm l₂)
    (hN : (l₂.map File.name).Nodup) (hcol : noCollision l₂) :
    (∀ l : List File, List.Sorted pairLe (scan_directory l).1 ∧
      List.Sorted nameLe (scan_directory l).2) ∧
    scan_directory l₁ = scan_directory l₂ := by
  refine ⟨fun l =>
    ⟨List.sorted_insertionSort pairLe _, List.sorted_insertionSort nameLe _⟩, ?_⟩
  have h₁ : List.insertionSort pairLe (scanPairs l₁) =
      List.insertionSort pairLe (scanPairs l₂) :=
    insertionSort_eq_of_perm_of_key (fun p : File × File => p.1.stem) pairLe
      (fun a b => Iff.rfl) (scanPairs_perm hp hcol) (stems_nodup_scanPairs l₁)
  have hN₁ : (l₁.map File.name).Nodup := ((hp.map File.name).symm).nodup hN
  have h₂ : List.insertionSort nameLe (scanUnpaired l₁) =
      List.insertionSort nameLe (scanUnpaired l₂) :=
    insertionSort_eq_of_perm_of_key File.name nameLe
      (fun a b => Iff.rfl) (scanUnpaired_perm hp hcol) (scanUnpaired_names_nodup hN₁)
  unfold scan_directory
  rw [h₁, h₂]

/-- Witness for the amended C7: sortedness instantiated at the collision
listing `[a.jpg, a.JPG]` (where determinism fails but sortedness still
holds), and order-independence at two orderings of `[A.jpg, A.mp4, C.jpg]`. -/
theorem scan_sorted_and_order_independent_witness :
    (List.Sorted pairLe
      (scan_directory [(⟨"a", ".jpg"⟩ : File), ⟨"a", ".JPG"⟩]).1 ∧
     List.Sorted nameLe
      (scan_directory [(⟨"a", ".jpg"⟩ : File), ⟨"a", ".JPG"⟩]).2) ∧
    scan_directory [(⟨"C", ".jpg"⟩ : File), ⟨"A", ".mp4"⟩, ⟨"A", ".jpg"⟩] =
      scan_directory [(⟨"A", ".jpg"⟩ : File), ⟨"A", ".mp4"⟩, ⟨"C", ".jpg"⟩] :=
  ⟨(scan_sorted_and_order_independent
      [(⟨"C", ".jpg"⟩ : File), ⟨"A", ".mp4"⟩, ⟨"A", ".jpg"⟩]
      [(⟨"A", ".jpg"⟩ : File), ⟨"A", ".mp4"⟩, ⟨"C", ".jpg"⟩]
      (by decide) (by decide) (by decide)).1
    [(⟨"a", ".jpg"⟩ : File), ⟨"a", ".JPG"⟩],
   (scan_sorted_and_order_independent
      [(⟨"C", ".jpg"⟩ : File), ⟨"A", ".mp4"⟩, ⟨"A", ".jpg"⟩]
      [(⟨"A", ".jpg"⟩ : File), ⟨"A", ".mp4"⟩, ⟨"C", ".jpg"⟩]
      (by decide) (by decide) (by decide)).2⟩

/-- C8 (confirmed): for every listing, the stems of the scanner's pairs are
pairwise distinct, and hence the per-pair output filenames Live_stem.jpg /
Live_stem.mov are pairwise distinct across all pairs: no two pairs write to
the same output path. -/
theorem scan_pair_stems_and_output_names_distinct (l : List File) :
    (((scan_directory l).1).map fun p => p.1.stem).Nodup ∧
    (outputNames (scan_directory l).1).Nodup := by
  have hstems : (((scan_directory l).1).map fun p => p.1.stem).Nodup := by
    have hperm := (List.perm_insertionSort pairLe (scanPairs l)).symm
    exact (hperm.map _).nodup (stems_nodup_scanPairs l)
  exact ⟨hstems, outputNames_nodup_of _ hstems⟩

/-- C10 (confirmed): a listing entry whose extension does not lower-case to
.jpg or .mp4 appears neither in the scanner's pairs nor among the unpaired
assets. -/
theorem scan_ignores_other_extensions (l : List File) (f : File) (_hf : f ∈ l)
    (hrel : relevantExt f = false) :
    f ∉ pairFiles (scan_directory l).1 ∧ f ∉ (scan_directory l).2 := by
  constructor
  · intro hmem
    have hmem₂ : f ∈ pairFiles (scanPairs l) :=
      (List.Perm.flatMap_right _ (List.perm_insertionSort pairLe (scanPairs l))).subset hmem
    rcases mem_pairFiles hmem₂ with ⟨q, hq, hxq⟩
    have hg := goodPairs_scanPairs l q hq
    rcases hxq with h₁ | h₁
    · have := relevantExt_of_isJpg hg.1
      rw [← h₁, hrel] at this
      exact Bool.false_ne_true this
    · have := relevantExt_of_isMp4 hg.2.1
      rw [← h₁, hrel] at this
      exact Bool.false_ne_true this
  · intro hmem
    have hmem₂ : f ∈ scanUnpaired l :=
      (List.perm_insertionSort nameLe (scanUnpaired l)).subset hmem
    rcases List.mem_append.mp (show f ∈ _ ++ _ from hmem₂) with h₁ | h₁
    · have := relevantExt_of_isJpg (scanUnpaired_jpg_part h₁).2.1
      rw [hrel] at this
      exact Bool.false_ne_true this
    · have := relevantExt_of_isMp4 (scanUnpaired_mp4_part h₁).2.1
      rw [hrel] at this
      exact Bool.false_ne_true this

/-- Witness for C10: a `.png` file and a directory-like extensionless entry
end up in neither output list. -/
theorem scan_ignores_other_extensions_witness :
    ((⟨"x", ".png"⟩ : File) ∉
      pairFiles (scan_directory [(⟨"x", ".png"⟩ : File), ⟨"a", ".jpg"⟩]).1 ∧
     (⟨"x", ".png"⟩ : File) ∉ (scan_directory [(⟨"x", ".png"⟩ : File), ⟨"a", ".jpg"⟩]).2) ∧
    ((⟨"movies", ""⟩ : File) ∉
      pairFiles (scan_directory [(⟨"movies", ""⟩ : File), ⟨"a", ".jpg"⟩]).1 ∧
     (⟨"movies", ""⟩ : File) ∉ (scan_directory [(⟨"movies", ""⟩ : File), ⟨"a", ".jpg"⟩]).2) :=
  ⟨scan_ignores_other_extensions _ _ (by decide) (by decide),
   scan_ignores_other_extensions _ _ (by decide) (by decide)⟩

/-! ## Claim theorems: capture-time resolver, copier, worker count, finalizer -/

/-- C2 (code bug): when exiftool exits 0 and its stdout is the valid JSON
text `[5]`, `json.loads` succeeds with the list `[5]`, `data[0]` is the
integer `5`, and `5 .get("DateTimeOriginal", "")` raises AttributeError —
which the handler for (JSONDecodeError, IndexError, KeyError) does not
catch.  The resolver raises instead of returning a string, contradicting
the claim that it never raises and degrades to the mtime fallback. -/
theorem get_capture_datetime_raises_on_nonobject_payload :
    get_capture_datetime 0 (some (.jarr [.jnum 5])) ⟨2024, 1, 2, 3, 4, 5⟩ =
      .error .attributeError := by
  rfl

/-- C3 (code bug): with unpaired assets `[a.jpg, b.mp4]` where the copy of
`a.jpg` fails, `copy_unpaired` stops at `a.jpg` with nothing copied: `b.mp4`
is never attempted even though its own copy would succeed (no per-item
try/except exists in the loop), contradicting the claim that a failure is
caught at the item's boundary and later assets are still attempted. -/
theorem copy_unpaired_aborts_on_first_failure :
    copy_unpaired (fun f => f.stem == "b") [⟨"a", ".jpg"⟩, ⟨"b", ".mp4"⟩] =
      ([], some ⟨"a", ".jpg"⟩) ∧
    (fun f : File => f.stem == "b") ⟨"b", ".mp4"⟩ = true := by
  decide

/-- C5 (counterexample): with a successful identifier write and a failing
timestamp write, `finalize_pair` returns success, but its observable
behaviour — return value and the log lines it emits — is identical to a run
in which the timestamp write succeeds: the failure is not logged anywhere,
because the boolean result of `set_mov_creation_date` is discarded. -/
theorem finalize_pair_ts_failure_not_logged :
    finalize_pair (.ok "B48-UUID") false "IMG_1" =
      finalize_pair (.ok "B48-UUID") true "IMG_1" ∧
    (finalize_pair (.ok "B48-UUID") false "IMG_1").1 = true := by
  decide

/-- C5 (amended): after a successful identifier write (a non-empty token),
`finalize_pair` returns success whether or not the timestamp write succeeds;
the timestamp failure is silently ignored — the emitted log lines do not
depend on the timestamp write's result. -/
theorem finalize_pair_tolerates_ts_failure (idtok stem : String) (ts_ok : Bool)
    (h : idtok ≠ "") :
    (finalize_pair (.ok idtok) ts_ok stem).1 = true ∧
    (finalize_pair (.ok idtok) false stem).2 = (finalize_pair (.ok idtok) true stem).2 := by
  constructor
  · simp [finalize_pair, write_live_photo_metadata, h]
  · simp [finalize_pair, write_live_photo_metadata, h]

/-- Witness for the amended C5 at a concrete identifier and stem. -/
theorem finalize_pair_tolerates_ts_failure_witness :
    (finalize_pair (.ok "B48") false "IMG_1").1 = true ∧
    (finalize_pair (.ok "B48") false "IMG_1").2 =
      (finalize_pair (.ok "B48") true "IMG_1").2 :=
  finalize_pair_tolerates_ts_failure "B48" "IMG_1" false (by decide)

/-- C9 (counterexample): with one reported processing unit the worker count
is `max(1, min(1 // 2, 4)) = 1`, not `min(1 // 2, 4) = 0`: the claim's
"n halved capped at 4" omits the floor of 1. -/
theorem transcode_workers_one_cpu :
    TRANSCODE_WORKERS (some 1) = 1 ∧ min (1 / 2) 4 = 0 ∧ (1 : Nat) ≠ 0 := by
  decide

/-- C9 (amended): the worker count never exceeds 4; for n ≥ 2 reported units
it equals min(n // 2, 4); for n < 2 it is floored to 1; an unreported count
is treated as 2, giving 1 worker. -/
theorem transcode_workers_bounds (n : Nat) :
    TRANSCODE_WORKERS (some n) ≤ 4 ∧
    (2 ≤ n → TRANSCODE_WORKERS (some n) = min (n / 2) 4) ∧
    (n < 2 → TRANSCODE_WORKERS (some n) = 1) ∧
    TRANSCODE_WORKERS none = 1 := by
  have hc : TRANSCODE_WORKERS (some n) = max 1 (min ((if n = 0 then 2 else n) / 2) 4) := rfl
  rw [hc]
  by_cases h : n = 0
  · subst h
    exact ⟨by decide, fun h₂ => absurd h₂ (by decide), fun _ => by decide, rfl⟩
  · rw [if_neg h]
    refine ⟨?_, fun h₂ => ?_, fun h₂ => ?_, rfl⟩
    · omega
    · omega
    · omega

/-- Witness for the amended C9 at 6 and at 1 reported units. -/
theorem transcode_workers_bounds_witness :
    TRANSCODE_WORKERS (some 6) = min (6 / 2) 4 ∧ TRANSCODE_WORKERS (some 1) = 1 :=
  ⟨(transcode_workers_bounds 6).2.1 (by decide), (transcode_workers_bounds 1).2.2.1 (by decide)⟩

/-! ## Orchestration lemmas -/

theorem phase1_prepared_stems (env : Env) (σ : List (File × File)) :
    (phase1_prepared env σ).map Prepared.stem =
      (σ.filter fun p => env.enc p.2).map fun p => p.1.stem := by
  induction σ with
  | nil => rfl
  | cons p rest ih =>
    cases henc : env.enc p.2 with
    | true =>
      have hprep : prepare_pair env p.1 p.2 = some
          ⟨"Live_" ++ p.1.stem ++ ".jpg", "Live_" ++ p.1.stem ++ ".mov",
            env.dt p.1, p.1.stem⟩ := by
        simp [prepare_pair, henc]
      simp [phase1_prepared, List.filterMap_cons, List.filter_cons, hprep, henc] at ih ⊢
      exact ih
    | false =>
      have hprep : prepare_pair env p.1 p.2 = none := by
        simp [prepare_pair, henc]
      simp [phase1_prepared, List.filterMap_cons, List.filter_cons, hprep, henc] at ih ⊢
      exact ih

theorem countP_phase1_prepared (env : Env) (σ : List (File × File)) :
    (phase1_prepared env σ).countP (finalize_success env) = σ.countP (pairSuccess env) := by
  induction σ with
  | nil => rfl
  | cons p rest ih =>
    cases henc : env.enc p.2 with
    | true =>
      have hprep : prepare_pair env p.1 p.2 = some
          ⟨"Live_" ++ p.1.stem ++ ".jpg", "Live_" ++ p.1.stem ++ ".mov",
            env.dt p.1, p.1.stem⟩ := by
        simp [prepare_pair, henc]
      simp [phase1_prepared, List.filterMap_cons, List.countP_cons, hprep,
        pairSuccess, finalize_success, henc] at ih ⊢
      rw [ih]
    | false =>
      have hprep : prepare_pair env p.1 p.2 = none := by
        simp [prepare_pair, henc]
      simp [phase1_prepared, List.filterMap_cons, List.countP_cons, hprep,
        pairSuccess, henc] at ih ⊢
      exact ih

theorem phase1_prepared_perm (env : Env) {σ₁ σ₂ : List (File × File)}
    (h : σ₁.Perm σ₂) : (phase1_prepared env σ₁).Perm (phase1_prepared env σ₂) :=
  h.filterMap _

theorem phase2_items_eq_of_perm (env : Env) {pairs σ₁ σ₂ : List (File × File)}
    (h₁ : σ₁.Perm pairs) (h₂ : σ₂.Perm pairs)
    (hnd : (pairs.map fun p => p.1.stem).Nodup) :
    phase2_items env σ₁ = phase2_items env σ₂ := by
  unfold phase2_items
  apply insertionSort_eq_of_perm_of_key Prepared.stem preparedLe (fun a b => Iff.rfl)
    (phase1_prepared_perm env (h₁.trans h₂.symm))
  rw [phase1_prepared_stems]
  have hσ : ((σ₁.map fun p => p.1.stem)).Nodup := ((h₁.map _).symm).nodup hnd
  exact ((List.filter_sublist σ₁).map _).nodup hσ

theorem phase2_stems_perm (env : Env) {pairs σ : List (File × File)}
    (hσ : σ.Perm pairs) :
    ((phase2_items env σ).map Prepared.stem).Perm
      ((pairs.filter fun p => env.enc p.2).map fun p => p.1.stem) := by
  unfold phase2_items
  refine ((List.perm_insertionSort preparedLe _).map _).trans ?_
  rw [phase1_prepared_stems]
  exact (hσ.filter _).map _

theorem phase2_ok_counts (env : Env) {pairs σ : List (File × File)}
    (hσ : σ.Perm pairs) : phase2_ok env σ = pairs.countP (pairSuccess env) := by
  unfold phase2_ok phase2_items
  rw [(List.perm_insertionSort preparedLe _).countP_eq,
    countP_phase1_prepared]
  exact hσ.countP_eq _

theorem mem_phase1_outputs_jpg (env : Env) {pairs : List (File × File)}
    {p : File × File} (hp : p ∈ pairs) :
    ("Live_" ++ p.1.stem ++ ".jpg") ∈ phase1_outputs env pairs :=
  List.mem_flatMap.mpr ⟨p, hp, by simp [prepare_writes]⟩

theorem mem_phase1_outputs_mov_iff (env : Env) {pairs : List (File × File)}
    (hnd : (pairs.map fun p => p.1.stem).Nodup)
    {p : File × File} (hp : p ∈ pairs) (hfail : env.enc p.2 = false) :
    ("Live_" ++ p.1.stem ++ ".mov") ∈ phase1_outputs env pairs ↔
      env.movOnFail p.2 = true := by
  constructor
  · intro h
    rcases List.mem_flatMap.mp h with ⟨q, hq, hmem⟩
    unfold prepare_writes at hmem
    rcases List.mem_cons.mp hmem with hx | hx
    · exact absurd hx.symm (live_jpg_ne_mov _ _)
    · by_cases hc : (env.enc q.2 || env.movOnFail q.2) = true
      · rw [if_pos hc] at hx
        simp only [List.mem_singleton] at hx
        have hst := string_append_inj_of_affix hx
        have hpq : p = q := List.inj_on_of_nodup_map hnd hp hq hst
        rw [← hpq] at hc
        rw [hfail] at hc
        simpa using hc
      · rw [if_neg hc] at hx
        simp at hx
  · intro h
    apply List.mem_flatMap.mpr
    refine ⟨p, hp, ?_⟩
    unfold prepare_writes
    have hc : (env.enc p.2 || env.movOnFail p.2) = true := by simp [h]
    rw [if_pos hc]
    simp

/-! ## Claim theorems: orchestration -/

/-- C6 (confirmed): phase two iterates over exactly the phase-one successes —
the stems it processes are precisely the stems of the pairs whose transcode
succeeded, so it never begins a stem outside phase one's successful output
set — it processes them in ascending stem order, and the processed list is
identical for any two completion orders of the phase-one futures. -/
theorem phase2_exactly_successes_in_stem_order (env : Env)
    (pairs σ₁ σ₂ : List (File × File)) (h₁ : σ₁.Perm pairs) (h₂ : σ₂.Perm pairs)
    (hnd : (pairs.map fun p => p.1.stem).Nodup) :
    ((phase2_items env σ₁).map Prepared.stem).Perm
      ((pairs.filter fun p => env.enc p.2).map fun p => p.1.stem) ∧
    List.Sorted preparedLe (phase2_items env σ₁) ∧
    phase2_items env σ₁ = phase2_items env σ₂ :=
  ⟨phase2_stems_perm env h₁, List.sorted_insertionSort preparedLe _,
   phase2_items_eq_of_perm env h₁ h₂ hnd⟩

/-- Witness for C6: pairs A and B with B's transcode failing, one completion
order reversed. -/
theorem phase2_exactly_successes_in_stem_order_witness :
    ((phase2_items encBOnlyFails
        [((⟨"B", ".jpg"⟩ : File), (⟨"B", ".mp4"⟩ : File)),
         ((⟨"A", ".jpg"⟩ : File), (⟨"A", ".mp4"⟩ : File))]).map Prepared.stem).Perm
      ((pairsAB.filter fun p => encBOnlyFails.enc p.2).map fun p => p.1.stem) ∧
    List.Sorted preparedLe (phase2_items encBOnlyFails
        [((⟨"B", ".jpg"⟩ : File), (⟨"B", ".mp4"⟩ : File)),
         ((⟨"A", ".jpg"⟩ : File), (⟨"A", ".mp4"⟩ : File))]) ∧
    phase2_items encBOnlyFails
        [((⟨"B", ".jpg"⟩ : File), (⟨"B", ".mp4"⟩ : File)),
         ((⟨"A", ".jpg"⟩ : File), (⟨"A", ".mp4"⟩ : File))] =
      phase2_items encBOnlyFails pairsAB :=
  phase2_exactly_successes_in_stem_order encBOnlyFails pairsAB _ _
    (by decide) (by decide) (by decide)

/-- C4 (counterexample): in the run where the encoder fails for pair B only,
pair B is excluded from phase two and the summary counts 1 success out of 2,
but the output directory still contains Live_B.jpg — `prepare_pair` copies
the still before attempting the transcode and never removes it — refuting
the claim that no output file named from B's stem is present at the end. -/
theorem transcode_failure_leaves_still_behind :
    "Live_B.jpg" ∈ phase1_outputs encBOnlyFails pairsAB ∧
    "B" ∉ (phase2_items encBOnlyFails pairsAB).map Prepared.stem ∧
    phase2_ok encBOnlyFails pairsAB = 1 := by
  decide

/-- C4 (amended): a pair whose transcode fails is excluded from phase two and
the summary counts exactly the fully-successful pairs; however the copied
still Live_<stem>.jpg remains in the output directory, and Live_<stem>.mov is
present there iff the failed encoder left a (partial) file behind. -/
theorem transcode_failure_drops_pair_but_leaves_still (env : Env)
    (pairs σ : List (File × File)) (hσ : σ.Perm pairs)
    (hnd : (pairs.map fun p => p.1.stem).Nodup)
    (p : File × File) (hp : p ∈ pairs) (hfail : env.enc p.2 = false) :
    p.1.stem ∉ (phase2_items env σ).map Prepared.stem ∧
    ("Live_" ++ p.1.stem ++ ".jpg") ∈ phase1_outputs env pairs ∧
    (("Live_" ++ p.1.stem ++ ".mov") ∈ phase1_outputs env pairs ↔
      env.movOnFail p.2 = true) ∧
    phase2_ok env σ = pairs.countP (pairSuccess env) := by
  refine ⟨?_, mem_phase1_outputs_jpg env hp,
    mem_phase1_outputs_mov_iff env hnd hp hfail, phase2_ok_counts env hσ⟩
  intro hmem
  have hmem₂ := (phase2_stems_perm env hσ).subset hmem
  rcases List.mem_map.mp hmem₂ with ⟨q, hq, hqs⟩
  rcases List.mem_filter.mp hq with ⟨hq₁, hq₂⟩
  have hqp : q = p := List.inj_on_of_nodup_map hnd hq₁ hp hqs
  rw [hqp, hfail] at hq₂
  cases hq₂

/-- Witness for the amended C4: pair B of the A/B scenario, completion order
reversed. -/
theorem transcode_failure_drops_pair_but_leaves_still_witness :
    "B" ∉ (phase2_items encBOnlyFails
        [((⟨"B", ".jpg"⟩ : File), (⟨"B", ".mp4"⟩ : File)),
         ((⟨"A", ".jpg"⟩ : File), (⟨"A", ".mp4"⟩ : File))]).map Prepared.stem ∧
    ("Live_" ++ "B" ++ ".jpg") ∈ phase1_outputs encBOnlyFails pairsAB ∧
    (("Live_" ++ "B" ++ ".mov") ∈ phase1_outputs encBOnlyFails pairsAB ↔
      encBOnlyFails.movOnFail ⟨"B", ".mp4"⟩ = true) ∧
    phase2_ok encBOnlyFails
        [((⟨"B", ".jpg"⟩ : File), (⟨"B", ".mp4"⟩ : File)),
         ((⟨"A", ".jpg"⟩ : File), (⟨"A", ".mp4"⟩ : File))] =
      pairsAB.countP (pairSuccess encBOnlyFails) :=
  transcode_failure_drops_pair_but_leaves_still encBOnlyFails pairsAB _
    (by decide) (by decide) ((⟨"B", ".jpg"⟩ : File), (⟨"B", ".mp4"⟩ : File))
    (by decide) (by decide)

end Vivo
